import Mathlib

/-!
Verification development for the dwarf2hydra layout generator (d2h.py).

The development has two layers, both translated from the source:

* A resolved-value model (`RType`): the shape of type nodes after
  finalization, when every type reference has been replaced by the
  resolved node.  The layout methods `has_padding`, `get_padding_list`,
  `get_hydras_type` and `generate_hydras_definition` are embedded over
  this model.

* A store model (`Node`, `Store`): type nodes as they sit in a
  compilation unit's offset-indexed map, with raw numeric references and
  the three-state lifecycle marker.  The recursive `finalize` /
  `do_finalize` algorithm is embedded over this model as an explicit
  state-passing function with a fuel parameter; the fuel only bounds the
  recursion depth, every behaviour of the original is reached at a large
  enough fuel.  Python object references into the unit map are modelled
  as keys into the store, which is exactly what they are: the map is the
  heap, and in-place mutation of a node is an update of the store at its
  key.

The cross-unit merge loop of `main` is embedded generically over the
element type, the name projection and the structural-equality test,
because the loop itself only uses those three things.
-/

/-! ## Resolved-value model -/

/-- A resolved type node, as it looks after finalization: every type
reference has been replaced by the referenced node.  Mirrors the classes
`Primitive`, `Struct`, `Array`, `Typedef`, `Pointer`, `ConstType`,
`EnumType`, `UnionType` of d2h.py with their post-finalization fields.
Struct members are `(member_offset, member_type, member_name)` triples in
declaration order, exactly as built by `Struct.__init__`/`do_finalize`. -/
inductive RType : Type where
  | primitive (name : String) (byteSize : Nat)
  | struc (name : Option String) (byteSize : Nat)
      (members : List (Nat × RType × String))
  | arr (item : RType) (dims : List Nat)
  | typedefR (name : String) (aliasTy : RType)
  | pointer (byteSize : Nat)
  | constR (item : RType)
  | enumR (name : String) (underlying : RType)
  | unionR (name : String) (byteSize : Nat) (variants : List (String × RType))

/-- A struct member triple `(offset, resolved type, field name)`. -/
abbrev RMember := Nat × RType × String

/-- The `byte_size` attribute of a finalized node.  `Primitive`,
`Struct`, `Pointer` and `Union` carry a declared size; `Array` computes
element size times the product of the dimensions (`Array.do_finalize`);
`Typedef`, `ConstType` and `EnumType` take their target's size
(`Typedef.do_finalize`, `ConstType.do_finalize`, `EnumType.do_finalize`). -/
def byteSize : RType → Nat
  | .primitive _ bs => bs
  | .struc _ bs _ => bs
  | .arr item dims => dims.foldl (fun a d => a * d) (byteSize item)
  | .typedefR _ aliasTy => byteSize aliasTy
  | .pointer bs => bs
  | .constR item => byteSize item
  | .enumR _ underlying => byteSize underlying
  | .unionR _ bs _ => bs

/-- Sum of the members' byte sizes, as in
`sum(map(lambda dm: dm[1].byte_size, self.members))`. -/
def sumMemberSizes (ms : List RMember) : Nat :=
  (ms.map (fun m => byteSize m.2.1)).sum

mutual

/-- The `has_padding` method: `False` for the base class (hence for
`Primitive`, `Pointer`, `EnumType` and unsupported nodes); for `Struct`,
declared size differs from the members' size sum or some member type has
padding; `Array`, `Typedef` and `ConstType` delegate to their target;
`UnionType` asks all variants. -/
def has_padding : RType → Bool
  | .primitive _ _ => false
  | .struc _ bs ms => (bs != sumMemberSizes ms) || members_any_padding ms
  | .arr item _ => has_padding item
  | .typedefR _ aliasTy => has_padding aliasTy
  | .pointer _ => false
  | .constR item => has_padding item
  | .enumR _ _ => false
  | .unionR _ _ vs => variants_any_padding vs

/-- `any(map(lambda dm: dm[1].has_padding(), self.members))`. -/
def members_any_padding : List (Nat × RType × String) → Bool
  | [] => false
  | (_, ty, _) :: rest => has_padding ty || members_any_padding rest

/-- `any(v.has_padding() for v in self.variants.values())`. -/
def variants_any_padding : List (String × RType) → Bool
  | [] => false
  | (_, ty) :: rest => has_padding ty || variants_any_padding rest

end

/-- The `get_hydras_type` methods.  `Primitive` renders floats by
capitalisation and integers by bit width and signedness (`'unsigned' in
self.name`); `Struct`, `Typedef`, `EnumType`, `UnionType` render their
bare name (a nameless struct renders as Python renders `None`);
`Array` wraps its element in one `Array(d, _)` layer per dimension,
iterating the dimension list in reverse; `Pointer` renders a fixed
placeholder; `ConstType` is transparent. -/
def get_hydras_type : RType → String
  | .primitive nm bs =>
    if nm = ("float") ∨ nm = ("double") then nm.capitalize
    else if decide (List.IsInfix ("unsigned").toList nm.toList) then
      ("uint") ++ toString (bs * 8) ++ ("_t")
    else
      ("int") ++ toString (bs * 8) ++ ("_t")
  | .struc nm _ _ => nm.getD ("None")
  | .arr item dims =>
    dims.reverse.foldl
      (fun t d => ("Array(") ++ toString d ++ (", ") ++ t ++ (")"))
      (get_hydras_type item)
  | .typedefR nm _ => nm
  | .pointer _ => ("ptr_int_for_kaplan_todo")
  | .constR item => get_hydras_type item
  | .enumR nm _ => nm
  | .unionR nm _ _ => nm

/-- The eight names generated by the anchored pattern
`u?int(8|16|32|64)_t` of `Typedef.needs_to_generate_hydra`. -/
def stdIntAliasNames : List String :=
  [("int8_t"), ("int16_t"), ("int32_t"), ("int64_t"),
   ("uint8_t"), ("uint16_t"), ("uint32_t"), ("uint64_t")]

/-- `re.match(r'u?int(8|16|32|64)_t', name)`: `re.match` anchors at the
start of the string only, so it succeeds exactly when one of the eight
literal alternatives of the pattern is a prefix of `name`. -/
def isStdIntTypedefName (s : String) : Bool :=
  stdIntAliasNames.any (fun p => List.isPrefixOf p.toList s.toList)

/-- `needs_to_generate_hydra`: `False` on the base class, `True` for
`Struct`, and for `Typedef` the negated fixed-width-integer name check. -/
def needs_to_generate_hydra : RType → Bool
  | .struc _ _ _ => true
  | .typedefR nm _ => !(isStdIntTypedefName nm)
  | _ => false

/-- One `fp.write` of `Struct.generate_hydras_definition`, in structured
form: the class header line, a synthetic `_padding_N = Pad(k)` filler
line, or a `member_name = <hydras type>` member line.  `renderEntry`
below recovers the exact written text. -/
inductive EmitEntry : Type where
  | classHeader (name : String)
  | padField (idx : Nat) (amount : Int)
  | memberField (fieldName : String) (ty : RType)

/-- The member loop of `Struct.generate_hydras_definition`, carrying the
`padding_counter` and `last_ending_offset` locals.  For each member, a
padding filler is written when `last_ending_offset < offset`, then the
member itself; `last_ending_offset` becomes `offset + byte_size`.
Returns the emitted entries together with the final counter and final
ending offset. -/
def struct_emit_loop : Nat → Nat → List RMember → List EmitEntry × Nat × Nat
  | padC, lastEnd, [] => ([], padC, lastEnd)
  | padC, lastEnd, (off, ty, nm) :: rest =>
    if lastEnd < off then
      let r := struct_emit_loop (padC + 1) (off + byteSize ty) rest
      (.padField padC ((off : Int) - (lastEnd : Int)) :: .memberField nm ty :: r.1,
        r.2.1, r.2.2)
    else
      let r := struct_emit_loop padC (off + byteSize ty) rest
      (.memberField nm ty :: r.1, r.2.1, r.2.2)

/-- `Struct.generate_hydras_definition`: the header, the member loop,
then a trailing `Pad(byte_size - last_ending_offset)` filler whenever
`last_ending_offset != self.byte_size`. -/
def generate_hydras_definition_struct
    (name : Option String) (bs : Nat) (ms : List RMember) : List EmitEntry :=
  let r := struct_emit_loop 0 0 ms
  .classHeader (name.getD ("None")) ::
    (r.1 ++ (if r.2.2 != bs then [.padField r.2.1 ((bs : Int) - (r.2.2 : Int))] else []))

/-- The exact text of one emitted line, matching the f-strings of
`Struct.generate_hydras_definition`. -/
def renderEntry : EmitEntry → String
  | .classHeader nm => ("class ") ++ nm ++ ("(Struct):\n")
  | .padField i a => ("    _padding_") ++ toString i ++ (" = Pad(") ++ toString a ++ (")\n")
  | .memberField nm ty => ("    ") ++ nm ++ (" = ") ++ get_hydras_type ty ++ ("\n")

/-- The fields of an emission: every entry except the class header. -/
def emittedFields (l : List EmitEntry) : List EmitEntry :=
  l.filter (fun e => match e with | .classHeader _ => false | _ => true)

/-- Byte size of one emitted entry: the filler amount for a padding
entry, the member type's byte size for a member entry. -/
def entrySize : EmitEntry → Int
  | .classHeader _ => 0
  | .padField _ a => a
  | .memberField _ ty => (byteSize ty : Int)

/-- Sum of the byte sizes of a list of emitted entries. -/
def sumEmittedSizes (l : List EmitEntry) : Int :=
  (l.map entrySize).sum

/-- The field names of an emission, member entries only, in order. -/
def fieldNames (l : List EmitEntry) : List String :=
  l.filterMap (fun e => match e with | .memberField nm _ => some nm | _ => none)

/-- `generate_hydras_definition` dispatched over the node kinds, as the
written lines: a struct writes its header/fields/ padding lines, a
typedef writes `name = <hydras type>` unless suppressed by
`needs_to_generate_hydra` (the method returns early in that case), every
other kind writes nothing (base-class `pass`). -/
def generate_hydras_definition : RType → List String
  | .struc nm bs ms => (generate_hydras_definition_struct nm bs ms).map renderEntry
  | .typedefR nm aliasTy =>
    if !(isStdIntTypedefName nm) then
      [nm ++ (" = ") ++ get_hydras_type aliasTy ++ ("\n")]
    else []
  | _ => []

/-- Whether a node is a `Typedef` (the `isinstance(_, Typedef)` test of
`generate_hydra_file`). -/
def isTypedefR : RType → Bool
  | .typedefR _ _ => true
  | _ => false

/-- The loop of `generate_hydra_file`: skip nodes that do not need
generation, write two line feeds unless both the current and the last
generated node are typedefs, then the node's own definition. -/
def genLoop (last : Option RType) : List RType → List String
  | [] => []
  | s :: rest =>
    if needs_to_generate_hydra s then
      (if isTypedefR s && (match last with | some l => isTypedefR l | none => false)
        then [] else [("\n\n")])
        ++ generate_hydras_definition s ++ genLoop (some s) rest
    else genLoop last rest

/-- `generate_hydra_file`: the import header followed by the loop. -/
def generateHydraFile (structs : List RType) : List String :=
  ("from hydras import *\n") :: genLoop none structs

/-- The `PaddingDetails` record: the member before the gap and, for an
inter-field gap, the member after it (`None` marks a trailing gap). -/
structure PaddingDetails : Type where
  prevField : RMember
  nextField : Option RMember

/-- `Struct.get_padding_list`: for each index `i` of
`range(len(members) - 1)` a gap entry when
`members[i+1].offset - members[i].offset - members[i].size > 0`, then the
trailing entry via `members[-1]`.  On a memberless struct `members[-1]`
raises `IndexError`; that failure is the `none` result. -/
def get_padding_list (bs : Nat) (ms : List RMember) : Option (List PaddingDetails) :=
  let pads := (List.range (ms.length - 1)).filterMap (fun i =>
    match ms[i]?, ms[i+1]? with
    | some cur, some next =>
      if 0 < (next.1 : Int) - (cur.1 : Int) - (byteSize cur.2.1 : Int) then
        some { prevField := cur, nextField := some next }
      else none
    | _, _ => none)
  match ms.getLast? with
  | none => none
  | some last =>
    some (pads ++
      (if 0 < (bs : Int) - ((last.1 : Int) + (byteSize last.2.1 : Int)) then
        [{ prevField := last, nextField := none }]
      else []))

/-- The padding list exactly as claim C6 words it: one entry per
adjacent member pair (in declaration order) with
`next.offset > cur.offset + cur.size`, plus one trailing entry exactly
when `struct.size > last.offset + last.size`, and nothing else. -/
def claimed_padding_list (bs : Nat) (ms : List RMember) : List PaddingDetails :=
  ((ms.zip ms.tail).filterMap (fun p =>
    if p.1.1 + byteSize p.1.2.1 < p.2.1 then
      some { prevField := p.1, nextField := some p.2 }
    else none))
  ++ (match ms.getLast? with
      | none => []
      | some last =>
        if last.1 + byteSize last.2.1 < bs then
          [{ prevField := last, nextField := none }]
        else [])

/-- Claim C1's stated precondition, first half: member offsets are
non-decreasing in declaration order. -/
def offsetsNondec : List RMember → Bool
  | [] => true
  | [_] => true
  | a :: b :: rest => decide (a.1 ≤ b.1) && offsetsNondec (b :: rest)

/-- Claim C1's stated precondition, second half: every member ends
within the declared size. -/
def endsWithin (bs : Nat) (ms : List RMember) : Bool :=
  ms.all (fun m => decide (m.1 + byteSize m.2.1 ≤ bs))

/-- The corrected precondition for C1: starting from ending offset
`lastEnd`, each member begins at or after the previous member's end
(members do not overlap and appear in offset order). -/
def chainOk : Nat → List RMember → Bool
  | _, [] => true
  | lastEnd, (off, ty, _) :: rest => decide (lastEnd ≤ off) && chainOk (off + byteSize ty) rest

/-! ## Store model: the compilation unit map and finalization -/

/-- The three lifecycle states `STATE_INITIAL`, `STATE_IN_PROCESS`,
`STATE_FINALIZED`. -/
inductive LState : Type where
  | stInitial
  | stInProgress
  | stFinalized
deriving DecidableEq

/-- A type reference held in a node: before resolution the raw numeric
offset of the referenced entry; after resolution a direct reference to
the node living at that offset of the unit map (a Python object
reference into the map is exactly a key of the map). -/
inductive Ref : Type where
  | raw (k : Nat)
  | res (k : Nat)
deriving DecidableEq

/-- The offset a reference points at. -/
def refKey : Ref → Nat
  | .raw k => k
  | .res k => k

/-- The per-variant data of a type node in the unit map.  Struct members
are `(offset, type reference, name)` triples in declaration order; enum
literals and union variants keep their ordered name mapping. -/
inductive Kind : Type where
  | primK
  | strucK (members : List (Nat × Ref × String))
  | arrK (item : Ref) (dims : List Nat)
  | typedefK (aliasTy : Option Ref)
  | ptrK (item : Option Ref)
  | constK (item : Option Ref)
  | enumK (item : Option Ref) (literals : List (String × Int))
  | unionK (variants : List (String × Ref))
  | unsupK
deriving DecidableEq

/-- A type node of the unit map: the shared `Type` attributes (`name`,
`byte_size`, `state`) plus the per-variant data. -/
structure Node : Type where
  name : Option String
  byteSize : Option Nat
  state : LState
  kind : Kind
deriving DecidableEq

/-- A compilation unit's offset-indexed node map. -/
abbrev Store := List (Nat × Node)

/-- Dictionary lookup `types[k]`. -/
def lookupT : Store → Nat → Option Node
  | [], _ => none
  | (k0, n) :: rest, k => if k0 = k then some n else lookupT rest k

/-- In-place mutation of the node at key `k`. -/
def updateT : Store → Nat → Node → Store
  | [], k, n => [(k, n)]
  | (k0, n0) :: rest, k, n =>
    if k0 = k then (k, n) :: rest else (k0, n0) :: updateT rest k n

/-- The ways a finalization run can abort: the cycle error raised by
`Type.finalize`, a `KeyError` from `types[...]` on a dangling offset,
the `AttributeError` from reading `.byte_size` of `None`
(`ConstType.do_finalize` on a const-void node), the `TypeError` from
multiplying `None` by a dimension (`Array.do_finalize` over an unsized
element), and exhaustion of the modelling fuel. -/
inductive FinErr : Type where
  | typeCycle
  | keyError
  | attrError
  | typeError
  | outOfFuel
deriving DecidableEq

/-- The message attached to each failure; `Type.finalize` raises
`RuntimeError("Type cycle detected")`. -/
def errMessage : FinErr → String
  | .typeCycle => ("Type cycle detected")
  | .keyError => ("KeyError")
  | .attrError => ("AttributeError")
  | .typeError => ("TypeError")
  | .outOfFuel => ("out of fuel")

mutual

/-- `Type.finalize(types, finalization_order)`: return immediately when
already finalized; raise the cycle error when in process; otherwise mark
in-process, run the variant's `do_finalize`, append the node to the
finalization order and mark finalized.  State and result are passed
explicitly: the store plays the role of `types` and of the mutable
nodes, the `List Nat` accumulates `finalization_order` (a node is
identified by its key). -/
def finalize : Nat → Nat → Store → List Nat → Except FinErr (Store × List Nat)
  | 0, _, _, _ => .error .outOfFuel
  | fuel + 1, k, st, order =>
    match lookupT st k with
    | none => .error .keyError
    | some n =>
      match n.state with
      | .stFinalized => .ok (st, order)
      | .stInProgress => .error .typeCycle
      | .stInitial =>
        match do_finalize fuel n.kind n.byteSize
            (updateT st k { n with state := .stInProgress }) order with
        | .error e => .error e
        | .ok (kind2, bs2, st2, order2) =>
          .ok (updateT st2 k { n with kind := kind2, byteSize := bs2, state := .stFinalized },
            order2 ++ [k])

/-- The variant-specific `do_finalize` bodies, returning the node's new
kind (references resolved) and new byte size together with the updated
store and finalization order:

* `Type.do_finalize` (primitives, unsupported nodes): `pass`.
* `Struct.do_finalize`: finalize every member's type in declaration
  order and replace the reference.
* `Array.do_finalize`: resolve and finalize the element type, take its
  byte size and multiply it by every dimension in turn; an element
  without a byte size makes the first multiplication `None * d` raise
  `TypeError`, but with an empty dimension list (a variable-length
  array) the loop never runs and the node finalizes with no byte size.
* `Typedef.do_finalize`: when an aliased type is present, resolve and
  finalize it and take its byte size; a void typedef does nothing.
* `Pointer.do_finalize`: when a pointee is present, resolve the
  reference; the pointee is NOT finalized and the declared size kept.
* `ConstType.do_finalize`: when a wrapped type is present, resolve the
  reference (again without finalizing it); then unconditionally read the
  wrapped node's byte size, which on a const-void node is
  `None.byte_size` and raises `AttributeError`.
* `EnumType.do_finalize`: like `Typedef` for the underlying type.
* `UnionType.do_finalize`: finalize every variant's type in declaration
  order and replace the reference; the declared size is kept. -/
def do_finalize : Nat → Kind → Option Nat → Store → List Nat →
    Except FinErr (Kind × Option Nat × Store × List Nat)
  | 0, _, _, _, _ => .error .outOfFuel
  | _ + 1, .primK, bs, st, order => .ok (.primK, bs, st, order)
  | _ + 1, .unsupK, bs, st, order => .ok (.unsupK, bs, st, order)
  | fuel + 1, .strucK ms, bs, st, order =>
    match finMembers fuel ms st order with
    | .error e => .error e
    | .ok (ms2, st2, order2) => .ok (.strucK ms2, bs, st2, order2)
  | fuel + 1, .arrK item dims, _, st, order =>
    match finalize fuel (refKey item) st order with
    | .error e => .error e
    | .ok (st2, order2) =>
      match lookupT st2 (refKey item) with
      | none => .error .keyError
      | some itemN =>
        match itemN.byteSize, dims with
        | none, [] => .ok (.arrK (.res (refKey item)) [], none, st2, order2)
        | none, _ :: _ => .error .typeError
        | some s, _ =>
          .ok (.arrK (.res (refKey item)) dims,
            some (dims.foldl (fun a d => a * d) s), st2, order2)
  | _ + 1, .typedefK none, bs, st, order => .ok (.typedefK none, bs, st, order)
  | fuel + 1, .typedefK (some r), _, st, order =>
    match finalize fuel (refKey r) st order with
    | .error e => .error e
    | .ok (st2, order2) =>
      match lookupT st2 (refKey r) with
      | none => .error .keyError
      | some aliasN =>
        .ok (.typedefK (some (.res (refKey r))), aliasN.byteSize, st2, order2)
  | _ + 1, .ptrK none, bs, st, order => .ok (.ptrK none, bs, st, order)
  | _ + 1, .ptrK (some r), bs, st, order =>
    match lookupT st (refKey r) with
    | none => .error .keyError
    | some _ => .ok (.ptrK (some (.res (refKey r))), bs, st, order)
  | _ + 1, .constK none, _, _, _ => .error .attrError
  | _ + 1, .constK (some r), _, st, order =>
    match lookupT st (refKey r) with
    | none => .error .keyError
    | some itemN => .ok (.constK (some (.res (refKey r))), itemN.byteSize, st, order)
  | _ + 1, .enumK none lits, bs, st, order => .ok (.enumK none lits, bs, st, order)
  | fuel + 1, .enumK (some r) lits, _, st, order =>
    match finalize fuel (refKey r) st order with
    | .error e => .error e
    | .ok (st2, order2) =>
      match lookupT st2 (refKey r) with
      | none => .error .keyError
      | some itemN =>
        .ok (.enumK (some (.res (refKey r))) lits, itemN.byteSize, st2, order2)
  | fuel + 1, .unionK vs, bs, st, order =>
    match finVariants fuel vs st order with
    | .error e => .error e
    | .ok (vs2, st2, order2) => .ok (.unionK vs2, bs, st2, order2)

/-- The member loop of `Struct.do_finalize`:
`types[type_num].finalize(...)` then
`new_members.append((offset, types[type_num], member_name))`. -/
def finMembers : Nat → List (Nat × Ref × String) → Store → List Nat →
    Except FinErr (List (Nat × Ref × String) × Store × List Nat)
  | 0, _, _, _ => .error .outOfFuel
  | _ + 1, [], st, order => .ok ([], st, order)
  | fuel + 1, (off, r, nm) :: rest, st, order =>
    match finalize fuel (refKey r) st order with
    | .error e => .error e
    | .ok (st2, order2) =>
      match finMembers fuel rest st2 order2 with
      | .error e => .error e
      | .ok (rest2, st3, order3) => .ok ((off, .res (refKey r), nm) :: rest2, st3, order3)

/-- The variant loop of `UnionType.do_finalize`. -/
def finVariants : Nat → List (String × Ref) → Store → List Nat →
    Except FinErr (List (String × Ref) × Store × List Nat)
  | 0, _, _, _ => .error .outOfFuel
  | _ + 1, [], st, order => .ok ([], st, order)
  | fuel + 1, (nm, r) :: rest, st, order =>
    match finalize fuel (refKey r) st order with
    | .error e => .error e
    | .ok (st2, order2) =>
      match finVariants fuel rest st2 order2 with
      | .error e => .error e
      | .ok (rest2, st3, order3) => .ok ((nm, .res (refKey r)) :: rest2, st3, order3)

end

/-! ## Root selection (main's whitelist loop) -/

/-- Whether the selection loop of `main` finalizes a node as a root:
`if s.name is None or not any(p.match(s.name) for p in patterns):
continue`.  A compiled regex is abstracted to its match predicate on the
name. -/
def selectedAsRoot (patterns : List (String → Bool)) (n : Node) : Bool :=
  match n.name with
  | none => false
  | some nm => patterns.any (fun p => p nm)

/-- The keys of the nodes that the selection loop finalizes, in unit-map
order. -/
def selectRoots (patterns : List (String → Bool)) (ts : List (Nat × Node)) : List Nat :=
  ts.filterMap (fun e => if selectedAsRoot patterns e.2 then some e.1 else none)

/-- Whether a node of the unit map is a struct
(`DW_TAG_structure_type` / `DW_TAG_class_type`). -/
def isStructKind : Kind → Bool
  | .strucK _ => true
  | _ => false

/-! ## Cross-unit merge (main's dedup loop) -/

/-- The fatal outcome of the merge loop: the diagnostic
`Conflicting definitions for struct `{s.name}`` followed by the failing
`assert same_named_type == s`, carrying the conflicting name. -/
inductive MergeErr : Type where
  | conflict (nm : Option String)
deriving DecidableEq

/-- The inner scan of the merge loop:
`for st in all_structs: if st.name == s.name: same_named_type = st`
(the last same-named element wins, `None` when there is none).  The loop
only needs the name projection, so the element type is a parameter. -/
def findSameNamed {α : Type} (name : α → Option String)
    (acc : List α) (nm : Option String) : Option α :=
  acc.foldl (fun res st => if name st = nm then some st else res) none

/-- One iteration of the merge loop of `main` for a newly finalized
node `s`: append it when no same-named node was collected yet, drop it
when an equal one was, and abort with the conflict diagnostic when the
collected one differs (`eqb` stands for the structural `__eq__`). -/
def mergeStep {α : Type} (name : α → Option String) (eqb : α → α → Bool)
    (acc : List α) (s : α) : Except MergeErr (List α) :=
  match findSameNamed name acc (name s) with
  | none => .ok (acc ++ [s])
  | some st => if eqb st s then .ok acc else .error (.conflict (name s))

/-- The merge loop over one finalization order, threading the
accumulated `all_structs` list. -/
def mergeAll {α : Type} (name : α → Option String) (eqb : α → α → Bool)
    (acc : List α) : List α → Except MergeErr (List α)
  | [] => .ok acc
  | s :: rest =>
    match mergeStep name eqb acc s with
    | .error e => .error e
    | .ok acc2 => mergeAll name eqb acc2 rest

/-- A minimal concrete node shape used to instantiate the generic merge
theorems on explicit inputs. -/
structure SNode : Type where
  sname : Option String
  ssize : Nat
deriving DecidableEq

/-! ## Basic store lemmas -/

lemma lookupT_updateT_self (st : Store) (k : Nat) (n : Node) :
    lookupT (updateT st k n) k = some n := by
  induction st with
  | nil => simp [updateT, lookupT]
  | cons hd tl ih =>
    obtain ⟨k0, n0⟩ := hd
    by_cases h : k0 = k
    · subst h
      simp [updateT, lookupT]
    · simp [updateT, lookupT, h, ih]

lemma lookupT_updateT_ne (st : Store) (k j : Nat) (n : Node) (h : j ≠ k) :
    lookupT (updateT st k n) j = lookupT st j := by
  have hkj : ¬ k = j := fun hh => h hh.symm
  induction st with
  | nil => simp [updateT, lookupT, hkj]
  | cons hd tl ih =>
    obtain ⟨k0, n0⟩ := hd
    by_cases hk : k0 = k
    · subst hk
      simp [updateT, lookupT, hkj]
    · simp [updateT, lookupT, hk, ih]

/-! ## Unfolding lemmas for the finalization engine -/

lemma finalize_zero (k : Nat) (st : Store) (order : List Nat) :
    finalize 0 k st order = .error .outOfFuel := rfl

lemma finalize_succ (fuel k : Nat) (st : Store) (order : List Nat) :
    finalize (fuel + 1) k st order =
      (match lookupT st k with
      | none => .error .keyError
      | some n =>
        match n.state with
        | .stFinalized => .ok (st, order)
        | .stInProgress => .error .typeCycle
        | .stInitial =>
          match do_finalize fuel n.kind n.byteSize
              (updateT st k { n with state := .stInProgress }) order with
          | .error e => .error e
          | .ok (kind2, bs2, st2, order2) =>
            .ok (updateT st2 k
              { n with kind := kind2, byteSize := bs2, state := .stFinalized },
              order2 ++ [k])) := rfl

lemma finMembers_zero (ms : List (Nat × Ref × String)) (st : Store) (order : List Nat) :
    finMembers 0 ms st order = .error .outOfFuel := rfl

lemma finMembers_nil (fuel : Nat) (st : Store) (order : List Nat) :
    finMembers (fuel + 1) [] st order = .ok ([], st, order) := rfl

lemma finMembers_cons (fuel off : Nat) (r : Ref) (nm : String)
    (rest : List (Nat × Ref × String)) (st : Store) (order : List Nat) :
    finMembers (fuel + 1) ((off, r, nm) :: rest) st order =
      (match finalize fuel (refKey r) st order with
      | .error e => .error e
      | .ok (st2, order2) =>
        match finMembers fuel rest st2 order2 with
        | .error e => .error e
        | .ok (rest2, st3, order3) =>
          .ok ((off, .res (refKey r), nm) :: rest2, st3, order3)) := rfl

lemma finVariants_zero (vs : List (String × Ref)) (st : Store) (order : List Nat) :
    finVariants 0 vs st order = .error .outOfFuel := rfl

lemma finVariants_nil (fuel : Nat) (st : Store) (order : List Nat) :
    finVariants (fuel + 1) [] st order = .ok ([], st, order) := rfl

lemma finVariants_cons (fuel : Nat) (nm : String) (r : Ref)
    (rest : List (String × Ref)) (st : Store) (order : List Nat) :
    finVariants (fuel + 1) ((nm, r) :: rest) st order =
      (match finalize fuel (refKey r) st order with
      | .error e => .error e
      | .ok (st2, order2) =>
        match finVariants fuel rest st2 order2 with
        | .error e => .error e
        | .ok (rest2, st3, order3) =>
          .ok ((nm, .res (refKey r)) :: rest2, st3, order3)) := rfl

lemma do_finalize_zero (kind : Kind) (bs : Option Nat) (st : Store) (order : List Nat) :
    do_finalize 0 kind bs st order = .error .outOfFuel := rfl

lemma do_finalize_primK (fuel : Nat) (bs : Option Nat) (st : Store) (order : List Nat) :
    do_finalize (fuel + 1) .primK bs st order = .ok (.primK, bs, st, order) := rfl

lemma do_finalize_unsupK (fuel : Nat) (bs : Option Nat) (st : Store) (order : List Nat) :
    do_finalize (fuel + 1) .unsupK bs st order = .ok (.unsupK, bs, st, order) := rfl

lemma do_finalize_strucK (fuel : Nat) (ms : List (Nat × Ref × String))
    (bs : Option Nat) (st : Store) (order : List Nat) :
    do_finalize (fuel + 1) (.strucK ms) bs st order =
      (match finMembers fuel ms st order with
      | .error e => .error e
      | .ok (ms2, st2, order2) => .ok (.strucK ms2, bs, st2, order2)) := rfl

lemma do_finalize_arrK (fuel : Nat) (item : Ref) (dims : List Nat)
    (bs : Option Nat) (st : Store) (order : List Nat) :
    do_finalize (fuel + 1) (.arrK item dims) bs st order =
      (match finalize fuel (refKey item) st order with
      | .error e => .error e
      | .ok (st2, order2) =>
        match lookupT st2 (refKey item) with
        | none => .error .keyError
        | some itemN =>
          match itemN.byteSize, dims with
          | none, [] => .ok (.arrK (.res (refKey item)) [], none, st2, order2)
          | none, _ :: _ => .error .typeError
          | some s, _ =>
            .ok (.arrK (.res (refKey item)) dims,
              some (dims.foldl (fun a d => a * d) s), st2, order2)) := rfl

lemma do_finalize_typedefK_none (fuel : Nat) (bs : Option Nat) (st : Store) (order : List Nat) :
    do_finalize (fuel + 1) (.typedefK none) bs st order = .ok (.typedefK none, bs, st, order) := rfl

lemma do_finalize_typedefK_some (fuel : Nat) (r : Ref) (bs : Option Nat)
    (st : Store) (order : List Nat) :
    do_finalize (fuel + 1) (.typedefK (some r)) bs st order =
      (match finalize fuel (refKey r) st order with
      | .error e => .error e
      | .ok (st2, order2) =>
        match lookupT st2 (refKey r) with
        | none => .error .keyError
        | some aliasN =>
          .ok (.typedefK (some (.res (refKey r))), aliasN.byteSize, st2, order2)) := rfl

lemma do_finalize_ptrK_none (fuel : Nat) (bs : Option Nat) (st : Store) (order : List Nat) :
    do_finalize (fuel + 1) (.ptrK none) bs st order = .ok (.ptrK none, bs, st, order) := rfl

lemma do_finalize_ptrK_some (fuel : Nat) (r : Ref) (bs : Option Nat)
    (st : Store) (order : List Nat) :
    do_finalize (fuel + 1) (.ptrK (some r)) bs st order =
      (match lookupT st (refKey r) with
      | none => .error .keyError
      | some _ => .ok (.ptrK (some (.res (refKey r))), bs, st, order)) := rfl

lemma do_finalize_constK_none (fuel : Nat) (bs : Option Nat) (st : Store) (order : List Nat) :
    do_finalize (fuel + 1) (.constK none) bs st order = .error .attrError := rfl

lemma do_finalize_constK_some (fuel : Nat) (r : Ref) (bs : Option Nat)
    (st : Store) (order : List Nat) :
    do_finalize (fuel + 1) (.constK (some r)) bs st order =
      (match lookupT st (refKey r) with
      | none => .error .keyError
      | some itemN =>
        .ok (.constK (some (.res (refKey r))), itemN.byteSize, st, order)) := rfl

lemma do_finalize_enumK_none (fuel : Nat) (lits : List (String × Int))
    (bs : Option Nat) (st : Store) (order : List Nat) :
    do_finalize (fuel + 1) (.enumK none lits) bs st order =
      .ok (.enumK none lits, bs, st, order) := rfl

lemma do_finalize_enumK_some (fuel : Nat) (r : Ref) (lits : List (String × Int))
    (bs : Option Nat) (st : Store) (order : List Nat) :
    do_finalize (fuel + 1) (.enumK (some r) lits) bs st order =
      (match finalize fuel (refKey r) st order with
      | .error e => .error e
      | .ok (st2, order2) =>
        match lookupT st2 (refKey r) with
        | none => .error .keyError
        | some itemN =>
          .ok (.enumK (some (.res (refKey r))) lits, itemN.byteSize, st2, order2)) := rfl

lemma do_finalize_unionK (fuel : Nat) (vs : List (String × Ref))
    (bs : Option Nat) (st : Store) (order : List Nat) :
    do_finalize (fuel + 1) (.unionK vs) bs st order =
      (match finVariants fuel vs st order with
      | .error e => .error e
      | .ok (vs2, st2, order2) => .ok (.unionK vs2, bs, st2, order2)) := rfl

/-! ## Persistence of finalized nodes -/

/-- Finalized nodes are never touched again: store evolution preserves
every entry whose state is already `STATE_FINALIZED`. -/
def Pers (st st2 : Store) : Prop :=
  ∀ j n, lookupT st j = some n → n.state = .stFinalized → lookupT st2 j = some n

lemma pers_refl (st : Store) : Pers st st := fun _ _ h _ => h

lemma pers_trans {a b c : Store} (h1 : Pers a b) (h2 : Pers b c) : Pers a c :=
  fun j n hl hf => h2 j n (h1 j n hl hf) hf

lemma pers_all : ∀ fuel : Nat,
    (∀ k st order st2 order2,
      finalize fuel k st order = .ok (st2, order2) → Pers st st2) ∧
    (∀ kind bs st order kind2 bs2 st2 order2,
      do_finalize fuel kind bs st order = .ok (kind2, bs2, st2, order2) → Pers st st2) ∧
    (∀ ms st order ms2 st2 order2,
      finMembers fuel ms st order = .ok (ms2, st2, order2) → Pers st st2) ∧
    (∀ vs st order vs2 st2 order2,
      finVariants fuel vs st order = .ok (vs2, st2, order2) → Pers st st2) := by
  intro fuel
  induction fuel with
  | zero =>
    refine ⟨?_, ?_, ?_, ?_⟩ <;> intros <;> simp_all [finalize_zero, do_finalize_zero,
      finMembers_zero, finVariants_zero]
  | succ fuel ih =>
    obtain ⟨ihF, ihD, ihM, ihV⟩ := ih
    refine ⟨?_, ?_, ?_, ?_⟩
    · intro k st order st2 order2 hok
      rw [finalize_succ] at hok
      split at hok
      · simp at hok
      · rename_i n hlk
        split at hok
        · simp only [Except.ok.injEq, Prod.mk.injEq] at hok
          obtain ⟨h1, _⟩ := hok
          subst h1
          exact pers_refl st
        · simp at hok
        · rename_i hst
          split at hok
          · simp at hok
          · rename_i kind2 bs2 stM orderM hdo
            simp only [Except.ok.injEq, Prod.mk.injEq] at hok
            obtain ⟨h1, _⟩ := hok
            intro j nj hj hf
            by_cases hjk : j = k
            · subst hjk
              rw [hlk] at hj
              injection hj with hj
              subst hj
              rw [hst] at hf
              exact absurd hf (by simp)
            · have hpd := ihD n.kind n.byteSize
                (updateT st k { n with state := .stInProgress }) order kind2 bs2 stM orderM hdo
              have hj1 : lookupT (updateT st k { n with state := .stInProgress }) j
                  = some nj := by
                rw [lookupT_updateT_ne st k j _ hjk]; exact hj
              have hj2 := hpd j nj hj1 hf
              rw [← h1]
              rw [lookupT_updateT_ne stM k j _ hjk]
              exact hj2
    · intro kind bs st order kind2 bs2 st2 order2 hok
      cases kind with
      | primK =>
        rw [do_finalize_primK] at hok
        simp only [Except.ok.injEq, Prod.mk.injEq] at hok
        obtain ⟨_, _, h1, _⟩ := hok
        subst h1
        exact pers_refl st
      | unsupK =>
        rw [do_finalize_unsupK] at hok
        simp only [Except.ok.injEq, Prod.mk.injEq] at hok
        obtain ⟨_, _, h1, _⟩ := hok
        subst h1
        exact pers_refl st
      | strucK ms =>
        rw [do_finalize_strucK] at hok
        split at hok
        · simp at hok
        · rename_i ms2x stx ox hm
          simp only [Except.ok.injEq, Prod.mk.injEq] at hok
          obtain ⟨_, _, h1, _⟩ := hok
          subst h1
          exact ihM ms st order ms2x stx ox hm
      | arrK item dims =>
        rw [do_finalize_arrK] at hok
        split at hok
        · simp at hok
        · rename_i stA oA hf1
          split at hok
          · simp at hok
          · rename_i itemN hl2
            split at hok
            · simp only [Except.ok.injEq, Prod.mk.injEq] at hok
              obtain ⟨_, _, h1, _⟩ := hok
              subst h1
              exact ihF (refKey item) st order stA oA hf1
            · simp at hok
            · simp only [Except.ok.injEq, Prod.mk.injEq] at hok
              obtain ⟨_, _, h1, _⟩ := hok
              subst h1
              exact ihF (refKey item) st order stA oA hf1
      | typedefK r =>
        cases r with
        | none =>
          rw [do_finalize_typedefK_none] at hok
          simp only [Except.ok.injEq, Prod.mk.injEq] at hok
          obtain ⟨_, _, h1, _⟩ := hok
          subst h1
          exact pers_refl st
        | some r =>
          rw [do_finalize_typedefK_some] at hok
          split at hok
          · simp at hok
          · rename_i stA oA hf1
            split at hok
            · simp at hok
            · rename_i aliasN hl2
              simp only [Except.ok.injEq, Prod.mk.injEq] at hok
              obtain ⟨_, _, h1, _⟩ := hok
              subst h1
              exact ihF (refKey r) st order stA oA hf1
      | ptrK r =>
        cases r with
        | none =>
          rw [do_finalize_ptrK_none] at hok
          simp only [Except.ok.injEq, Prod.mk.injEq] at hok
          obtain ⟨_, _, h1, _⟩ := hok
          subst h1
          exact pers_refl st
        | some r =>
          rw [do_finalize_ptrK_some] at hok
          split at hok
          · simp at hok
          · rename_i itemN hl2
            simp only [Except.ok.injEq, Prod.mk.injEq] at hok
            obtain ⟨_, _, h1, _⟩ := hok
            subst h1
            exact pers_refl st
      | constK r =>
        cases r with
        | none => rw [do_finalize_constK_none] at hok; simp at hok
        | some r =>
          rw [do_finalize_constK_some] at hok
          split at hok
          · simp at hok
          · rename_i itemN hl2
            simp only [Except.ok.injEq, Prod.mk.injEq] at hok
            obtain ⟨_, _, h1, _⟩ := hok
            subst h1
            exact pers_refl st
      | enumK r lits =>
        cases r with
        | none =>
          rw [do_finalize_enumK_none] at hok
          simp only [Except.ok.injEq, Prod.mk.injEq] at hok
          obtain ⟨_, _, h1, _⟩ := hok
          subst h1
          exact pers_refl st
        | some r =>
          rw [do_finalize_enumK_some] at hok
          split at hok
          · simp at hok
          · rename_i stA oA hf1
            split at hok
            · simp at hok
            · rename_i itemN hl2
              simp only [Except.ok.injEq, Prod.mk.injEq] at hok
              obtain ⟨_, _, h1, _⟩ := hok
              subst h1
              exact ihF (refKey r) st order stA oA hf1
      | unionK vs =>
        rw [do_finalize_unionK] at hok
        split at hok
        · simp at hok
        · rename_i vs2x stx ox hv
          simp only [Except.ok.injEq, Prod.mk.injEq] at hok
          obtain ⟨_, _, h1, _⟩ := hok
          subst h1
          exact ihV vs st order vs2x stx ox hv
    · intro ms st order ms2 st2 order2 hok
      cases ms with
      | nil =>
        rw [finMembers_nil] at hok
        simp only [Except.ok.injEq, Prod.mk.injEq] at hok
        obtain ⟨_, h1, _⟩ := hok
        subst h1
        exact pers_refl st
      | cons hd rest =>
        obtain ⟨off, r, nm⟩ := hd
        rw [finMembers_cons] at hok
        split at hok
        · simp at hok
        · rename_i stA oA hf1
          split at hok
          · simp at hok
          · rename_i rest2 stB oB hm2
            simp only [Except.ok.injEq, Prod.mk.injEq] at hok
            obtain ⟨_, h1, _⟩ := hok
            subst h1
            exact pers_trans (ihF (refKey r) st order stA oA hf1)
              (ihM rest stA oA rest2 stB oB hm2)
    · intro vs st order vs2 st2 order2 hok
      cases vs with
      | nil =>
        rw [finVariants_nil] at hok
        simp only [Except.ok.injEq, Prod.mk.injEq] at hok
        obtain ⟨_, h1, _⟩ := hok
        subst h1
        exact pers_refl st
      | cons hd rest =>
        obtain ⟨nm, r⟩ := hd
        rw [finVariants_cons] at hok
        split at hok
        · simp at hok
        · rename_i stA oA hf1
          split at hok
          · simp at hok
          · rename_i rest2 stB oB hv2
            simp only [Except.ok.injEq, Prod.mk.injEq] at hok
            obtain ⟨_, h1, _⟩ := hok
            subst h1
            exact pers_trans (ihF (refKey r) st order stA oA hf1)
              (ihV rest stA oA rest2 stB oB hv2)

lemma finalize_pers {fuel k : Nat} {st : Store} {order : List Nat}
    {st2 : Store} {order2 : List Nat}
    (h : finalize fuel k st order = .ok (st2, order2)) : Pers st st2 :=
  (pers_all fuel).1 k st order st2 order2 h

lemma finMembers_pers {fuel : Nat} {ms : List (Nat × Ref × String)} {st : Store}
    {order : List Nat} {ms2 : List (Nat × Ref × String)} {st2 : Store} {order2 : List Nat}
    (h : finMembers fuel ms st order = .ok (ms2, st2, order2)) : Pers st st2 :=
  ((pers_all fuel).2.2.1) ms st order ms2 st2 order2 h

lemma finVariants_pers {fuel : Nat} {vs : List (String × Ref)} {st : Store}
    {order : List Nat} {vs2 : List (String × Ref)} {st2 : Store} {order2 : List Nat}
    (h : finVariants fuel vs st order = .ok (vs2, st2, order2)) : Pers st st2 :=
  ((pers_all fuel).2.2.2) vs st order vs2 st2 order2 h

/-! ## Shape of finalization results -/

/-- A successful finalize leaves the requested node finalized. -/
lemma finalize_ok_finalized {fuel k : Nat} {st : Store} {order : List Nat}
    {st2 : Store} {order2 : List Nat}
    (h : finalize fuel k st order = .ok (st2, order2)) :
    ∃ n2, lookupT st2 k = some n2 ∧ n2.state = .stFinalized := by
  cases fuel with
  | zero => simp [finalize_zero] at h
  | succ fuel =>
    rw [finalize_succ] at h
    split at h
    · simp at h
    · rename_i n hlk
      split at h
      · rename_i hst
        simp only [Except.ok.injEq, Prod.mk.injEq] at h
        obtain ⟨h1, _⟩ := h
        subst h1
        exact ⟨n, hlk, hst⟩
      · simp at h
      · split at h
        · simp at h
        · rename_i kind2 bs2 stM orderM hdo
          simp only [Except.ok.injEq, Prod.mk.injEq] at h
          obtain ⟨h1, _⟩ := h
          subst h1
          exact ⟨_, lookupT_updateT_self stM k _, rfl⟩

/-- The reference a resolution step produces: the direct reference to
the node at the same key. -/
def resolveRef (r : Ref) : Ref := .res (refKey r)

/-- The kind of a node after its `do_finalize` ran: every held reference
replaced by the resolved one, everything else unchanged. -/
def resolveKind : Kind → Kind
  | .strucK ms => .strucK (ms.map (fun m => (m.1, resolveRef m.2.1, m.2.2)))
  | .arrK item dims => .arrK (resolveRef item) dims
  | .typedefK r => .typedefK (r.map resolveRef)
  | .ptrK r => .ptrK (r.map resolveRef)
  | .constK r => .constK (r.map resolveRef)
  | .enumK r lits => .enumK (r.map resolveRef) lits
  | .unionK vs => .unionK (vs.map (fun v => (v.1, resolveRef v.2)))
  | .primK => .primK
  | .unsupK => .unsupK

/-- The references that finalization recurses into, per claim C2 as
amended: struct members in declaration order, the array element, the
typedef alias when present, the enum underlying type, and the union
variants — but not the pointer pointee and not the const-qualified
wrapped type, which are resolved without being finalized. -/
def recRefKeys : Kind → List Nat
  | .strucK ms => ms.map (fun m => refKey m.2.1)
  | .arrK item _ => [refKey item]
  | .typedefK (some r) => [refKey r]
  | .typedefK none => []
  | .enumK (some r) _ => [refKey r]
  | .enumK none _ => []
  | .unionK vs => vs.map (fun v => refKey v.2)
  | _ => []

lemma finMembers_shape : ∀ (ms : List (Nat × Ref × String)) (fuel : Nat)
    (st : Store) (order : List Nat) (ms2 : List (Nat × Ref × String))
    (st2 : Store) (order2 : List Nat),
    finMembers fuel ms st order = .ok (ms2, st2, order2) →
    ms2 = ms.map (fun m => (m.1, Ref.res (refKey m.2.1), m.2.2)) := by
  intro ms
  induction ms with
  | nil =>
    intro fuel st order ms2 st2 order2 h
    cases fuel with
    | zero => simp [finMembers_zero] at h
    | succ fuel =>
      rw [finMembers_nil] at h
      simp only [Except.ok.injEq, Prod.mk.injEq] at h
      obtain ⟨h1, _⟩ := h
      simp [← h1]
  | cons hd rest ih =>
    intro fuel st order ms2 st2 order2 h
    obtain ⟨off, r, nm⟩ := hd
    cases fuel with
    | zero => simp [finMembers_zero] at h
    | succ fuel =>
      rw [finMembers_cons] at h
      split at h
      · simp at h
      · rename_i stA oA hf1
        split at h
        · simp at h
        · rename_i rest2 stB oB hm2
          simp only [Except.ok.injEq, Prod.mk.injEq] at h
          obtain ⟨h1, _⟩ := h
          subst h1
          simp [ih fuel stA oA rest2 stB oB hm2]

lemma finVariants_shape : ∀ (vs : List (String × Ref)) (fuel : Nat)
    (st : Store) (order : List Nat) (vs2 : List (String × Ref))
    (st2 : Store) (order2 : List Nat),
    finVariants fuel vs st order = .ok (vs2, st2, order2) →
    vs2 = vs.map (fun v => (v.1, Ref.res (refKey v.2))) := by
  intro vs
  induction vs with
  | nil =>
    intro fuel st order vs2 st2 order2 h
    cases fuel with
    | zero => simp [finVariants_zero] at h
    | succ fuel =>
      rw [finVariants_nil] at h
      simp only [Except.ok.injEq, Prod.mk.injEq] at h
      obtain ⟨h1, _⟩ := h
      simp [← h1]
  | cons hd rest ih =>
    intro fuel st order vs2 st2 order2 h
    obtain ⟨nm, r⟩ := hd
    cases fuel with
    | zero => simp [finVariants_zero] at h
    | succ fuel =>
      rw [finVariants_cons] at h
      split at h
      · simp at h
      · rename_i stA oA hf1
        split at h
        · simp at h
        · rename_i rest2 stB oB hv2
          simp only [Except.ok.injEq, Prod.mk.injEq] at h
          obtain ⟨h1, _⟩ := h
          subst h1
          simp [ih fuel stA oA rest2 stB oB hv2]

lemma finMembers_finalizes : ∀ (ms : List (Nat × Ref × String)) (fuel : Nat)
    (st : Store) (order : List Nat) (ms2 : List (Nat × Ref × String))
    (st2 : Store) (order2 : List Nat),
    finMembers fuel ms st order = .ok (ms2, st2, order2) →
    ∀ m ∈ ms, ∃ nd, lookupT st2 (refKey m.2.1) = some nd ∧ nd.state = .stFinalized := by
  intro ms
  induction ms with
  | nil => intro fuel st order ms2 st2 order2 h m hm; simp at hm
  | cons hd rest ih =>
    intro fuel st order ms2 st2 order2 h m hm
    obtain ⟨off, r, nm⟩ := hd
    cases fuel with
    | zero => simp [finMembers_zero] at h
    | succ fuel =>
      rw [finMembers_cons] at h
      split at h
      · simp at h
      · rename_i stA oA hf1
        split at h
        · simp at h
        · rename_i rest2 stB oB hm2
          simp only [Except.ok.injEq, Prod.mk.injEq] at h
          obtain ⟨_, h1, _⟩ := h
          subst h1
          rcases List.mem_cons.mp hm with hm | hm
          · subst hm
            obtain ⟨nd, hnd, hndf⟩ := finalize_ok_finalized hf1
            exact ⟨nd, finMembers_pers hm2 _ nd hnd hndf, hndf⟩
          · exact ih fuel stA oA rest2 stB oB hm2 m hm

lemma finVariants_finalizes : ∀ (vs : List (String × Ref)) (fuel : Nat)
    (st : Store) (order : List Nat) (vs2 : List (String × Ref))
    (st2 : Store) (order2 : List Nat),
    finVariants fuel vs st order = .ok (vs2, st2, order2) →
    ∀ v ∈ vs, ∃ nd, lookupT st2 (refKey v.2) = some nd ∧ nd.state = .stFinalized := by
  intro vs
  induction vs with
  | nil => intro fuel st order vs2 st2 order2 h v hv; simp at hv
  | cons hd rest ih =>
    intro fuel st order vs2 st2 order2 h v hv
    obtain ⟨nm, r⟩ := hd
    cases fuel with
    | zero => simp [finVariants_zero] at h
    | succ fuel =>
      rw [finVariants_cons] at h
      split at h
      · simp at h
      · rename_i stA oA hf1
        split at h
        · simp at h
        · rename_i rest2 stB oB hv2
          simp only [Except.ok.injEq, Prod.mk.injEq] at h
          obtain ⟨_, h1, _⟩ := h
          subst h1
          rcases List.mem_cons.mp hv with hv | hv
          · subst hv
            obtain ⟨nd, hnd, hndf⟩ := finalize_ok_finalized hf1
            exact ⟨nd, finVariants_pers hv2 _ nd hnd hndf, hndf⟩
          · exact ih fuel stA oA rest2 stB oB hv2 v hv

/-- A successful `do_finalize` rewrites the kind by resolving every
held reference. -/
lemma do_finalize_kind_shape {fuel : Nat} {kind : Kind} {bs : Option Nat}
    {st : Store} {order : List Nat} {kind2 : Kind} {bs2 : Option Nat}
    {st2 : Store} {order2 : List Nat}
    (h : do_finalize fuel kind bs st order = .ok (kind2, bs2, st2, order2)) :
    kind2 = resolveKind kind := by
  cases fuel with
  | zero => simp [do_finalize_zero] at h
  | succ fuel =>
    cases kind with
    | primK =>
      rw [do_finalize_primK] at h
      simp only [Except.ok.injEq, Prod.mk.injEq] at h
      simp [resolveKind, ← h.1]
    | unsupK =>
      rw [do_finalize_unsupK] at h
      simp only [Except.ok.injEq, Prod.mk.injEq] at h
      simp [resolveKind, ← h.1]
    | strucK ms =>
      rw [do_finalize_strucK] at h
      split at h
      · simp at h
      · rename_i ms2x stx ox hm
        simp only [Except.ok.injEq, Prod.mk.injEq] at h
        obtain ⟨h1, _⟩ := h
        subst h1
        simp [resolveKind, finMembers_shape ms fuel st order ms2x stx ox hm, resolveRef]
    | arrK item dims =>
      rw [do_finalize_arrK] at h
      split at h
      · simp at h
      · rename_i stA oA hf1
        split at h
        · simp at h
        · rename_i itemN hl2
          split at h
          · rename_i hbs hdims
            simp only [Except.ok.injEq, Prod.mk.injEq] at h
            obtain ⟨h1, _⟩ := h
            subst h1
            simp [resolveKind, resolveRef, hdims]
          · simp at h
          · simp only [Except.ok.injEq, Prod.mk.injEq] at h
            obtain ⟨h1, _⟩ := h
            subst h1
            simp [resolveKind, resolveRef]
    | typedefK r =>
      cases r with
      | none =>
        rw [do_finalize_typedefK_none] at h
        simp only [Except.ok.injEq, Prod.mk.injEq] at h
        simp [resolveKind, ← h.1]
      | some r =>
        rw [do_finalize_typedefK_some] at h
        split at h
        · simp at h
        · rename_i stA oA hf1
          split at h
          · simp at h
          · simp only [Except.ok.injEq, Prod.mk.injEq] at h
            obtain ⟨h1, _⟩ := h
            subst h1
            simp [resolveKind, resolveRef]
    | ptrK r =>
      cases r with
      | none =>
        rw [do_finalize_ptrK_none] at h
        simp only [Except.ok.injEq, Prod.mk.injEq] at h
        simp [resolveKind, ← h.1]
      | some r =>
        rw [do_finalize_ptrK_some] at h
        split at h
        · simp at h
        · simp only [Except.ok.injEq, Prod.mk.injEq] at h
          obtain ⟨h1, _⟩ := h
          subst h1
          simp [resolveKind, resolveRef]
    | constK r =>
      cases r with
      | none => rw [do_finalize_constK_none] at h; simp at h
      | some r =>
        rw [do_finalize_constK_some] at h
        split at h
        · simp at h
        · simp only [Except.ok.injEq, Prod.mk.injEq] at h
          obtain ⟨h1, _⟩ := h
          subst h1
          simp [resolveKind, resolveRef]
    | enumK r lits =>
      cases r with
      | none =>
        rw [do_finalize_enumK_none] at h
        simp only [Except.ok.injEq, Prod.mk.injEq] at h
        simp [resolveKind, ← h.1]
      | some r =>
        rw [do_finalize_enumK_some] at h
        split at h
        · simp at h
        · rename_i stA oA hf1
          split at h
          · simp at h
          · simp only [Except.ok.injEq, Prod.mk.injEq] at h
            obtain ⟨h1, _⟩ := h
            subst h1
            simp [resolveKind, resolveRef]
    | unionK vs =>
      rw [do_finalize_unionK] at h
      split at h
      · simp at h
      · rename_i vs2x stx ox hv
        simp only [Except.ok.injEq, Prod.mk.injEq] at h
        obtain ⟨h1, _⟩ := h
        subst h1
        simp [resolveKind, finVariants_shape vs fuel st order vs2x stx ox hv, resolveRef]

/-- A successful `do_finalize` leaves every recursion target finalized
in the resulting store. -/
lemma do_finalize_deps {fuel : Nat} {kind : Kind} {bs : Option Nat}
    {st : Store} {order : List Nat} {kind2 : Kind} {bs2 : Option Nat}
    {st2 : Store} {order2 : List Nat}
    (h : do_finalize fuel kind bs st order = .ok (kind2, bs2, st2, order2)) :
    ∀ j ∈ recRefKeys kind, ∃ nd, lookupT st2 j = some nd ∧ nd.state = .stFinalized := by
  cases fuel with
  | zero => simp [do_finalize_zero] at h
  | succ fuel =>
    cases kind with
    | primK => intro j hj; simp [recRefKeys] at hj
    | unsupK => intro j hj; simp [recRefKeys] at hj
    | strucK ms =>
      rw [do_finalize_strucK] at h
      split at h
      · simp at h
      · rename_i ms2x stx ox hm
        simp only [Except.ok.injEq, Prod.mk.injEq] at h
        obtain ⟨_, _, h1, _⟩ := h
        subst h1
        intro j hj
        simp only [recRefKeys, List.mem_map] at hj
        obtain ⟨m, hmem, hjm⟩ := hj
        subst hjm
        exact finMembers_finalizes ms fuel st order ms2x stx ox hm m hmem
    | arrK item dims =>
      rw [do_finalize_arrK] at h
      split at h
      · simp at h
      · rename_i stA oA hf1
        split at h
        · simp at h
        · rename_i itemN hl2
          split at h
          · simp only [Except.ok.injEq, Prod.mk.injEq] at h
            obtain ⟨_, _, h1, _⟩ := h
            subst h1
            intro j hj
            simp only [recRefKeys, List.mem_singleton] at hj
            subst hj
            exact finalize_ok_finalized hf1
          · simp at h
          · simp only [Except.ok.injEq, Prod.mk.injEq] at h
            obtain ⟨_, _, h1, _⟩ := h
            subst h1
            intro j hj
            simp only [recRefKeys, List.mem_singleton] at hj
            subst hj
            exact finalize_ok_finalized hf1
    | typedefK r =>
      cases r with
      | none => intro j hj; simp [recRefKeys] at hj
      | some r =>
        rw [do_finalize_typedefK_some] at h
        split at h
        · simp at h
        · rename_i stA oA hf1
          split at h
          · simp at h
          · simp only [Except.ok.injEq, Prod.mk.injEq] at h
            obtain ⟨_, _, h1, _⟩ := h
            subst h1
            intro j hj
            simp only [recRefKeys, List.mem_singleton] at hj
            subst hj
            exact finalize_ok_finalized hf1
    | ptrK r =>
      cases r with
      | none => intro j hj; simp [recRefKeys] at hj
      | some r => intro j hj; simp [recRefKeys] at hj
    | constK r =>
      cases r with
      | none => intro j hj; simp [recRefKeys] at hj
      | some r => intro j hj; simp [recRefKeys] at hj
    | enumK r lits =>
      cases r with
      | none => intro j hj; simp [recRefKeys] at hj
      | some r =>
        rw [do_finalize_enumK_some] at h
        split at h
        · simp at h
        · rename_i stA oA hf1
          split at h
          · simp at h
          · simp only [Except.ok.injEq, Prod.mk.injEq] at h
            obtain ⟨_, _, h1, _⟩ := h
            subst h1
            intro j hj
            simp only [recRefKeys, List.mem_singleton] at hj
            subst hj
            exact finalize_ok_finalized hf1
    | unionK vs =>
      rw [do_finalize_unionK] at h
      split at h
      · simp at h
      · rename_i vs2x stx ox hv
        simp only [Except.ok.injEq, Prod.mk.injEq] at h
        obtain ⟨_, _, h1, _⟩ := h
        subst h1
        intro j hj
        simp only [recRefKeys, List.mem_map] at hj
        obtain ⟨v, hmem, hjv⟩ := hj
        subst hjv
        exact finVariants_finalizes vs fuel st order vs2x stx ox hv v hmem

/-- A successful finalize of an initial node, spelled through the state
of the found node. -/
lemma finalize_state_eq (fuel k : Nat) (st : Store) (order : List Nat) (n : Node)
    (hl : lookupT st k = some n) :
    finalize (fuel + 1) k st order =
      (match n.state with
      | .stFinalized => .ok (st, order)
      | .stInProgress => .error .typeCycle
      | .stInitial =>
        match do_finalize fuel n.kind n.byteSize
            (updateT st k { n with state := .stInProgress }) order with
        | .error e => .error e
        | .ok (kind2, bs2, st2, order2) =>
          .ok (updateT st2 k
            { n with kind := kind2, byteSize := bs2, state := .stFinalized },
            order2 ++ [k])) := by
  rw [finalize_succ, hl]

/-- Claim C2 (amended): on a successful finalize of a node in the
initial state, the node ends finalized with every reference it held
replaced by the resolved node, and every directly referenced node along
the recursive edges — struct members in declaration order, the array
element type, the typedef alias when present, the enum underlying type,
and the union variant types — is itself Finalized in the resulting
store.  The pointer pointee and the const-qualified wrapped type are
replaced by the resolved reference but are not finalized (see the
counterexample), so they are absent from `recRefKeys`. -/
theorem finalize_resolves_and_finalizes_deps
    (fuel k : Nat) (st : Store) (order : List Nat) (st2 : Store) (order2 : List Nat)
    (n : Node)
    (hok : finalize fuel k st order = .ok (st2, order2))
    (hl : lookupT st k = some n) (hs : n.state = .stInitial) :
    (∃ n2, lookupT st2 k = some n2 ∧ n2.state = .stFinalized ∧
      n2.kind = resolveKind n.kind) ∧
    (∀ j ∈ recRefKeys n.kind, ∃ nd, lookupT st2 j = some nd ∧
      nd.state = .stFinalized) := by
  cases fuel with
  | zero => simp [finalize_zero] at hok
  | succ fuel =>
    rw [finalize_state_eq fuel k st order n hl, hs] at hok
    split at hok
    · rename_i heq
      simp at heq
    · simp at hok
    · split at hok
      · simp at hok
      · rename_i kind2 bs2 stM orderM hdo
        simp only [Except.ok.injEq, Prod.mk.injEq] at hok
        obtain ⟨h1, _⟩ := hok
        subst h1
        constructor
        · exact ⟨_, lookupT_updateT_self stM k _, rfl, do_finalize_kind_shape hdo⟩
        · intro j hj
          obtain ⟨nd, hnd, hndf⟩ := do_finalize_deps hdo j hj
          by_cases hjk : j = k
          · subst hjk
            exact ⟨_, lookupT_updateT_self stM j _, rfl⟩
          · exact ⟨nd, by rw [lookupT_updateT_ne stM k j _ hjk]; exact hnd, hndf⟩

/-- A pointer node whose pointee is an (unsized, unfinalized) array. -/
def ptrNode : Node :=
  { name := some ("p"), byteSize := some 8, state := .stInitial,
    kind := .ptrK (some (.raw 1)) }

/-- The pointee: an array node that nothing finalizes. -/
def arrNode : Node :=
  { name := none, byteSize := none, state := .stInitial,
    kind := .arrK (.raw 2) [3] }

/-- A store holding the pointer at key 0 and its pointee at key 1. -/
def ptrStore : Store := [(0, ptrNode), (1, arrNode)]

/-- Claim C2, counterexample: finalizing the pointer node succeeds and
finalizes the pointer itself, but its directly referenced pointee — a
node reachable from it — is left in the Initial state with no byte size:
`Pointer.do_finalize` replaces the reference without finalizing it, so
not every node reachable from a finalized node is Finalized with a
defined byte size. -/
theorem finalize_pointer_pointee_not_finalized :
    (finalize 5 0 ptrStore []).map
      (fun p => ((lookupT p.1 0).map Node.state, (lookupT p.1 1).map Node.state,
        (lookupT p.1 1).map Node.byteSize))
      = .ok (some .stFinalized, some .stInitial, some none) := by rfl

/-- The struct-with-one-member store the amended-C2 theorem is
instantiated on. -/
def wNodeS : Node :=
  { name := some ("S"), byteSize := some 8, state := .stInitial,
    kind := .strucK [(0, .raw 1, ("a"))] }

/-- The member type of `wNodeS`: a 4-byte primitive. -/
def wNodeP : Node :=
  { name := some ("int"), byteSize := some 4, state := .stInitial, kind := .primK }

/-- The store holding `wNodeS` at key 0 and `wNodeP` at key 1. -/
def wStore : Store := [(0, wNodeS), (1, wNodeP)]

/-- `wNodeP` after finalization. -/
def wNodePFin : Node :=
  { name := some ("int"), byteSize := some 4, state := .stFinalized, kind := .primK }

/-- `wNodeS` after finalization: member reference resolved. -/
def wNodeSFin : Node :=
  { name := some ("S"), byteSize := some 8, state := .stFinalized,
    kind := .strucK [(0, .res 1, ("a"))] }

/-- The store after finalizing key 0 of `wStore`. -/
def wStoreOut : Store := [(0, wNodeSFin), (1, wNodePFin)]

/-- Claim C2, witness: the amended theorem applied to the concrete
one-member struct store. -/
theorem finalize_resolves_and_finalizes_deps_witness :
    (∃ n2, lookupT wStoreOut 0 = some n2 ∧ n2.state = .stFinalized ∧
      n2.kind = resolveKind wNodeS.kind) ∧
    (∀ j ∈ recRefKeys wNodeS.kind, ∃ nd, lookupT wStoreOut j = some nd ∧
      nd.state = .stFinalized) :=
  finalize_resolves_and_finalizes_deps 5 0 wStore [] wStoreOut [1, 0] wNodeS
    (by rfl) rfl rfl

/-- Claim C3 (amended): calling finalize on a node whose state is
in-process raises the cycle error, aborting the run; the raised error is
the constant `RuntimeError("Type cycle detected")`, which does not
identify the offending node. -/
theorem finalize_in_progress_raises_cycle
    (fuel k : Nat) (st : Store) (order : List Nat) (n : Node)
    (hl : lookupT st k = some n) (hs : n.state = .stInProgress) :
    finalize (fuel + 1) k st order = .error .typeCycle ∧
    errMessage .typeCycle = ("Type cycle detected") := by
  refine ⟨?_, rfl⟩
  rw [finalize_state_eq fuel k st order n hl, hs]

/-- A struct node named Foo sitting in the in-process state. -/
def cycNode : Node :=
  { name := some ("Foo"), byteSize := none, state := .stInProgress,
    kind := .strucK [] }

/-- A store holding only `cycNode`. -/
def cycStore : Store := [(0, cycNode)]

/-- Claim C3, counterexample: the error raised for the in-process node
named Foo carries the fixed message, and that message does not contain
the node's name — the diagnostic does not identify the offending node. -/
theorem cycle_error_does_not_name_node :
    finalize 3 0 cycStore [] = .error .typeCycle ∧
    errMessage .typeCycle = ("Type cycle detected") ∧
    ¬ List.IsInfix ("Foo").toList (errMessage .typeCycle).toList := by
  refine ⟨by rfl, rfl, by decide⟩

/-- Claim C3, witness: the amended theorem applied to the concrete
in-process store. -/
theorem finalize_in_progress_raises_cycle_witness :
    finalize 4 0 cycStore [] = .error .typeCycle ∧
    errMessage .typeCycle = ("Type cycle detected") :=
  finalize_in_progress_raises_cycle 3 0 cycStore [] cycNode rfl rfl

/-- Claim C9: finalize is idempotent — on a node whose state is already
Finalized it returns immediately with the store (hence the node's byte
size and every other field) and the finalization-order record unchanged. -/
theorem finalize_idempotent
    (fuel k : Nat) (st : Store) (order : List Nat) (n : Node)
    (hl : lookupT st k = some n) (hs : n.state = .stFinalized) :
    finalize (fuel + 1) k st order = .ok (st, order) := by
  rw [finalize_state_eq fuel k st order n hl, hs]

/-- An already-finalized primitive node. -/
def finNode : Node :=
  { name := some ("done"), byteSize := some 4, state := .stFinalized, kind := .primK }

/-- A store holding only `finNode`. -/
def finStore : Store := [(0, finNode)]

/-- Claim C9, witness: re-finalizing the finalized node leaves the store
and the order record untouched. -/
theorem finalize_idempotent_witness :
    finalize 7 0 finStore [] = .ok (finStore, []) :=
  finalize_idempotent 6 0 finStore [] finNode rfl rfl

/-- Claim C10: finalizing a const-qualified node with no wrapped type
reference (const void) is not total — after the absent-reference check,
`ConstType.do_finalize` unconditionally reads the wrapped type's byte
size, which fails on the absent reference; so both `do_finalize` and a
full finalize of such a node abort with the attribute error, while a
present (and mapped) wrapped reference makes the same step succeed:
a present wrapped type is an unstated precondition. -/
theorem constType_finalize_requires_wrapped :
    (∀ fuel : Nat, ∀ bs : Option Nat, ∀ st : Store, ∀ order : List Nat,
      do_finalize (fuel + 1) (.constK none) bs st order = .error .attrError) ∧
    (∀ fuel k : Nat, ∀ st : Store, ∀ order : List Nat, ∀ n : Node,
      lookupT st k = some n → n.state = .stInitial → n.kind = .constK none →
      finalize (fuel + 2) k st order = .error .attrError) ∧
    (∀ fuel : Nat, ∀ r : Ref, ∀ bs : Option Nat, ∀ st : Store, ∀ order : List Nat,
      ∀ m : Node, lookupT st (refKey r) = some m →
      do_finalize (fuel + 1) (.constK (some r)) bs st order
        = .ok (.constK (some (.res (refKey r))), m.byteSize, st, order)) := by
  refine ⟨fun fuel bs st order => rfl, ?_, ?_⟩
  · intro fuel k st order n hl hs hk
    rw [finalize_state_eq (fuel + 1) k st order n hl, hs, hk,
      do_finalize_constK_none]
  · intro fuel r bs st order m hr
    rw [do_finalize_constK_some, hr]

/-- A const-void node: const qualifier wrapping no type. -/
def constVoidNode : Node :=
  { name := none, byteSize := none, state := .stInitial, kind := .constK none }

/-- A store holding only `constVoidNode`. -/
def constVoidStore : Store := [(0, constVoidNode)]

/-- Claim C10, witness: the theorem applied at the concrete const-void
store (failing case) and at the pointer store's wrapped reference
(succeeding case). -/
theorem constType_finalize_requires_wrapped_witness :
    finalize 3 0 constVoidStore [] = .error .attrError ∧
    do_finalize 3 (.constK (some (.raw 1))) none ptrStore []
      = .ok (.constK (some (.res 1)), none, ptrStore, []) :=
  ⟨constType_finalize_requires_wrapped.2.1 1 0 constVoidStore [] constVoidNode
      rfl rfl rfl,
    constType_finalize_requires_wrapped.2.2 2 (.raw 1) none ptrStore [] arrNode rfl⟩

/-! ## Claim C5: the has-padding characterisation -/

lemma members_any_padding_iff (ms : List RMember) :
    members_any_padding ms = true ↔ ∃ m ∈ ms, has_padding m.2.1 = true := by
  induction ms with
  | nil => simp [members_any_padding]
  | cons hd rest ih =>
    obtain ⟨off, ty, nm⟩ := hd
    simp [members_any_padding, ih]

/-- Claim C5: a finalized struct has padding exactly when its declared
byte size differs from the sum of its members' byte sizes or some
member's own type has padding; and the dense struct of declared size 5
with a 1-byte field at offset 0 and a 4-byte field at offset 1 reports
no padding. -/
theorem has_padding_characterization :
    (∀ nm : Option String, ∀ bs : Nat, ∀ ms : List RMember,
      has_padding (.struc nm bs ms) = true ↔
        bs ≠ sumMemberSizes ms ∨ ∃ m ∈ ms, has_padding m.2.1 = true) ∧
    has_padding (.struc (some ("S")) 5
      [(0, .primitive ("char") 1, ("a")), (1, .primitive ("int") 4, ("b"))]) = false := by
  constructor
  · intro nm bs ms
    simp [has_padding, members_any_padding_iff, Bool.or_eq_true, bne_iff_ne]
  · rfl

/-- Claim C5, witness: the characterisation applied to a sparse struct —
declared size 8 with only 5 bytes of members — which must report
padding. -/
theorem has_padding_characterization_witness :
    has_padding (.struc (some ("T")) 8
      [(0, .primitive ("char") 1, ("a")), (4, .primitive ("int") 4, ("b"))]) = true :=
  (has_padding_characterization.1 (some ("T")) 8
    [(0, .primitive ("char") 1, ("a")), (4, .primitive ("int") 4, ("b"))]).mpr
    (Or.inl (by decide))

/-! ## Claim C6: the padding list -/

lemma range_pairs_padding (ms : List RMember) :
    (List.range (ms.length - 1)).filterMap (fun i =>
      match ms[i]?, ms[i+1]? with
      | some cur, some next =>
        if 0 < (next.1 : Int) - (cur.1 : Int) - (byteSize cur.2.1 : Int) then
          some ({ prevField := cur, nextField := some next } : PaddingDetails)
        else none
      | _, _ => none)
    = (ms.zip ms.tail).filterMap (fun p =>
        if p.1.1 + byteSize p.1.2.1 < p.2.1 then
          some ({ prevField := p.1, nextField := some p.2 } : PaddingDetails)
        else none) := by
  induction ms with
  | nil => simp
  | cons a t ih =>
    cases t with
    | nil => simp
    | cons b t2 =>
      have h1 : (a :: b :: t2).length - 1 = t2.length + 1 := by simp
      rw [h1, List.range_succ_eq_map, List.filterMap_cons, List.filterMap_map]
      have h2 : ((fun i =>
          match (a :: b :: t2)[i]?, (a :: b :: t2)[i+1]? with
          | some cur, some next =>
            if 0 < (next.1 : Int) - (cur.1 : Int) - (byteSize cur.2.1 : Int) then
              some ({ prevField := cur, nextField := some next } : PaddingDetails)
            else none
          | _, _ => none) ∘ Nat.succ)
          = (fun i =>
          match (b :: t2)[i]?, (b :: t2)[i+1]? with
          | some cur, some next =>
            if 0 < (next.1 : Int) - (cur.1 : Int) - (byteSize cur.2.1 : Int) then
              some ({ prevField := cur, nextField := some next } : PaddingDetails)
            else none
          | _, _ => none) := by
        funext i
        simp only [Function.comp_apply, Nat.succ_eq_add_one, List.getElem?_cons_succ]
      rw [h2]
      have h3 : t2.length = (b :: t2).length - 1 := by simp
      rw [h3, ih]
      by_cases hc : a.1 + byteSize a.2.1 < b.1
      · have hc2 : 0 < (b.1 : Int) - (a.1 : Int) - (byteSize a.2.1 : Int) := by omega
        simp [List.zip_cons_cons, List.filterMap_cons, hc, hc2]
      · have hc2 : ¬ (0 < (b.1 : Int) - (a.1 : Int) - (byteSize a.2.1 : Int)) := by omega
        simp [List.zip_cons_cons, List.filterMap_cons, hc, hc2]

/-- Claim C6 (amended): on every struct with at least one member, the
padding list is exactly the claim's list — one entry per adjacent member
pair in declaration order with `next.offset > cur.offset + cur.size`,
then one trailing entry exactly when
`struct.size > last.offset + last.size`, and nothing else.  (On a
memberless struct the computation instead fails; see the
counterexample.) -/
theorem get_padding_list_matches_claim (bs : Nat) (ms : List RMember) (h : ms ≠ []) :
    get_padding_list bs ms = some (claimed_padding_list bs ms) := by
  cases hms : ms.getLast? with
  | none => exact absurd (List.getLast?_eq_none_iff.mp hms) h
  | some last =>
    simp only [get_padding_list, claimed_padding_list, hms]
    rw [range_pairs_padding]
    congr 1
    by_cases hc : last.1 + byteSize last.2.1 < bs
    · have hc2 : 0 < (bs : Int) - ((last.1 : Int) + (byteSize last.2.1 : Int)) := by omega
      simp [hc, hc2]
    · have hc2 : ¬ (0 < (bs : Int) - ((last.1 : Int) + (byteSize last.2.1 : Int))) := by omega
      simp [hc, hc2]

/-- Claim C6, counterexample: on a struct with no members the claim
would demand an (empty) padding list, but `get_padding_list` produces no
list at all — `self.members[-1]` raises `IndexError`. -/
theorem get_padding_list_empty_struct_fails :
    get_padding_list 4 ([] : List RMember) = none ∧
    claimed_padding_list 4 ([] : List RMember) = [] := ⟨rfl, rfl⟩

/-- Claim C6, witness: the amended theorem applied to a two-member
struct with one inter-field gap and one trailing gap. -/
theorem get_padding_list_matches_claim_witness :
    get_padding_list 5
      [(0, .primitive ("char") 1, ("a")), (2, .primitive ("char") 1, ("b"))]
      = some (claimed_padding_list 5
      [(0, .primitive ("char") 1, ("a")), (2, .primitive ("char") 1, ("b"))]) :=
  get_padding_list_matches_claim 5 _ (by simp)

/-! ## Claim C1: the emitted layout covers the declared size exactly -/

lemma sumEmittedSizes_emittedFields (l : List EmitEntry) :
    sumEmittedSizes (emittedFields l) = sumEmittedSizes l := by
  induction l with
  | nil => rfl
  | cons e t ih =>
    cases e <;>
      simp [emittedFields, sumEmittedSizes, entrySize, List.filter_cons] at * <;>
      omega

lemma sumEmittedSizes_append (l1 l2 : List EmitEntry) :
    sumEmittedSizes (l1 ++ l2) = sumEmittedSizes l1 + sumEmittedSizes l2 := by
  simp [sumEmittedSizes]

lemma fieldNames_append (l1 l2 : List EmitEntry) :
    fieldNames (l1 ++ l2) = fieldNames l1 ++ fieldNames l2 := by
  simp [fieldNames]

lemma struct_emit_loop_spec : ∀ (ms : List RMember) (padC lastEnd : Nat),
    chainOk lastEnd ms = true →
    sumEmittedSizes (struct_emit_loop padC lastEnd ms).1
      = ((struct_emit_loop padC lastEnd ms).2.2 : Int) - (lastEnd : Int) ∧
    fieldNames (struct_emit_loop padC lastEnd ms).1 = ms.map (fun m => m.2.2) := by
  intro ms
  induction ms with
  | nil =>
    intro padC lastEnd hch
    simp [struct_emit_loop, sumEmittedSizes, fieldNames]
  | cons hd rest ih =>
    intro padC lastEnd hch
    obtain ⟨off, ty, nm⟩ := hd
    simp only [chainOk, Bool.and_eq_true, decide_eq_true_eq] at hch
    obtain ⟨hle, hch2⟩ := hch
    by_cases hlt : lastEnd < off
    · have hih := ih (padC + 1) (off + byteSize ty) hch2
      simp only [struct_emit_loop, if_pos hlt]
      constructor
      · have h1 := hih.1
        simp only [sumEmittedSizes, List.map_cons, List.sum_cons, entrySize] at h1 ⊢
        omega
      · have h2 := hih.2
        simp only [fieldNames, List.filterMap_cons, List.map_cons] at h2 ⊢
        exact congrArg (nm :: ·) h2
    · have hih := ih padC (off + byteSize ty) hch2
      have heq : lastEnd = off := by omega
      subst heq
      simp only [struct_emit_loop, if_neg hlt]
      constructor
      · have h1 := hih.1
        simp only [sumEmittedSizes, List.map_cons, List.sum_cons, entrySize] at h1 ⊢
        omega
      · have h2 := hih.2
        simp only [fieldNames, List.filterMap_cons, List.map_cons] at h2 ⊢
        exact congrArg (nm :: ·) h2

/-- Claim C1 (amended): when each member begins at or after the previous
member's end (so members are non-overlapping and in offset order) and
each member ends within the declared size, the emitted definition's
field byte sizes — members plus the synthetic inter-field and trailing
padding fillers — sum to exactly the declared byte size, and the member
fields appear in source declaration order. -/
theorem generate_hydras_definition_size_exact :
    ∀ (nm : Option String) (bs : Nat) (ms : List RMember),
    chainOk 0 ms = true → endsWithin bs ms = true →
    sumEmittedSizes (emittedFields (generate_hydras_definition_struct nm bs ms))
      = (bs : Int) ∧
    fieldNames (generate_hydras_definition_struct nm bs ms)
      = ms.map (fun m => m.2.2) := by
  intro nm bs ms hch hew
  have hloop := struct_emit_loop_spec ms 0 0 hch
  simp only [generate_hydras_definition_struct]
  constructor
  · rw [sumEmittedSizes_emittedFields]
    have hhead : sumEmittedSizes (EmitEntry.classHeader (nm.getD ("None")) ::
        ((struct_emit_loop 0 0 ms).1 ++
          (if (struct_emit_loop 0 0 ms).2.2 != bs then
            [EmitEntry.padField (struct_emit_loop 0 0 ms).2.1
              ((bs : Int) - ((struct_emit_loop 0 0 ms).2.2 : Int))]
          else [])))
        = sumEmittedSizes ((struct_emit_loop 0 0 ms).1) +
          sumEmittedSizes (if (struct_emit_loop 0 0 ms).2.2 != bs then
            [EmitEntry.padField (struct_emit_loop 0 0 ms).2.1
              ((bs : Int) - ((struct_emit_loop 0 0 ms).2.2 : Int))]
          else []) := by
      simp [sumEmittedSizes, entrySize]
    rw [hhead, hloop.1]
    by_cases ht : (struct_emit_loop 0 0 ms).2.2 = bs
    · simp [ht, sumEmittedSizes]
    · have ht2 : ((struct_emit_loop 0 0 ms).2.2 != bs) = true := by
        simp [bne_iff_ne, ht]
      simp only [ht2, if_true]
      simp [sumEmittedSizes, entrySize]
  · have hh : fieldNames (EmitEntry.classHeader (nm.getD ("None")) ::
        ((struct_emit_loop 0 0 ms).1 ++
          (if (struct_emit_loop 0 0 ms).2.2 != bs then
            [EmitEntry.padField (struct_emit_loop 0 0 ms).2.1
              ((bs : Int) - ((struct_emit_loop 0 0 ms).2.2 : Int))]
          else [])))
        = fieldNames ((struct_emit_loop 0 0 ms).1) := by
      by_cases ht : (struct_emit_loop 0 0 ms).2.2 = bs <;>
        simp [fieldNames, ht]
    rw [hh, hloop.2]

/-- The member list of claim C1's counterexample: offsets 0 and 2 are
non-decreasing and both members end within the declared size 4, but the
second member starts inside the first. -/
def cxMembers : List RMember :=
  [(0, .primitive ("int") 4, ("a")), (2, .primitive ("char") 1, ("b"))]

/-- Claim C1, counterexample: under the claim's stated precondition —
non-decreasing offsets, every member ending within the declared size —
the emitted field sizes can fail to sum to the declared size: with
overlapping members the loop emits no filler (it only checks
`last_ending_offset < offset`) yet still appends a trailing filler, and
the total is 6 for a struct of declared size 4.  Field order is
nevertheless preserved. -/
theorem emitter_sum_fails_under_stated_precondition :
    offsetsNondec cxMembers = true ∧
    endsWithin 4 cxMembers = true ∧
    sumEmittedSizes (emittedFields
      (generate_hydras_definition_struct (some ("S")) 4 cxMembers)) ≠ (4 : Int) ∧
    fieldNames (generate_hydras_definition_struct (some ("S")) 4 cxMembers)
      = [("a"), ("b")] := by
  refine ⟨by decide, by decide, by decide, by decide⟩

/-- Claim C1, witness: the amended theorem applied to a struct of
declared size 8 with a 1-byte member at offset 0 and a 4-byte member at
offset 4 (one 3-byte inter-field filler, no trailing filler needed to be
checked — the sum is exactly 8). -/
theorem generate_hydras_definition_size_exact_witness :
    sumEmittedSizes (emittedFields (generate_hydras_definition_struct (some ("W")) 8
      [(0, .primitive ("char") 1, ("a")), (4, .primitive ("int") 4, ("b"))]))
      = (8 : Int) ∧
    fieldNames (generate_hydras_definition_struct (some ("W")) 8
      [(0, .primitive ("char") 1, ("a")), (4, .primitive ("int") 4, ("b"))])
      = [("a"), ("b")] :=
  generate_hydras_definition_size_exact (some ("W")) 8
    [(0, .primitive ("char") 1, ("a")), (4, .primitive ("int") 4, ("b"))]
    (by decide) (by decide)

/-! ## Claim C7: root selection -/

/-- A primitive node named int, as produced by the loader for
`DW_TAG_base_type`. -/
def intNode : Node :=
  { name := some ("int"), byteSize := some 4, state := .stInitial, kind := .primK }

/-- Claim C7, counterexample: the selection loop has no struct check —
the primitive node named int is selected as a finalization root by a
pattern matching that name even though it is not a struct. -/
theorem non_struct_selected_as_root :
    selectedAsRoot [fun s => s == ("int")] intNode = true ∧
    isStructKind intNode.kind = false := ⟨by decide, rfl⟩

/-- Claim C7 (amended): a type is selected as a finalization root iff it
has a name and at least one caller-supplied pattern matches that name,
regardless of its kind; with zero patterns nothing is selected, and the
emitted output for an empty selection is the bare import header with no
aggregate declarations. -/
theorem selection_amended :
    (∀ patterns : List (String → Bool), ∀ n : Node,
      selectedAsRoot patterns n = true ↔
        ∃ nm, n.name = some nm ∧ ∃ p ∈ patterns, p nm = true) ∧
    (∀ ts : List (Nat × Node), selectRoots [] ts = []) ∧
    generateHydraFile [] = [("from hydras import *\n")] := by
  have hempty : ∀ n : Node, selectedAsRoot [] n = false := by
    intro n
    cases hn : n.name <;> simp [selectedAsRoot, hn]
  refine ⟨?_, ?_, rfl⟩
  · intro patterns n
    cases hn : n.name with
    | none => simp [selectedAsRoot, hn]
    | some nm => simp [selectedAsRoot, hn, List.any_eq_true]
  · intro ts
    simp [selectRoots, hempty]

/-- A struct node named Point. -/
def pointNodeW : Node :=
  { name := some ("Point"), byteSize := some 8, state := .stInitial, kind := .strucK [] }

/-- Claim C7, witness: the amended characterisation applied to the
Point struct and a pattern matching its name. -/
theorem selection_amended_witness :
    selectedAsRoot [fun s => s == ("Point")] pointNodeW = true :=
  (selection_amended.1 [fun s => s == ("Point")] pointNodeW).mpr
    ⟨("Point"), rfl, fun s => s == ("Point"), by simp, by decide⟩

/-! ## Claim C8: typedef suppression -/

/-- Claim C8, counterexample: the suppression test is a prefix-anchored
regex match, so the typedef named uint8_tag — which is not one of the
eight standard fixed-width integer alias names — is also suppressed and
produces no output. -/
theorem typedef_suppression_prefix_counterexample :
    generate_hydras_definition (.typedefR ("uint8_tag") (.primitive ("unsigned char") 1))
      = [] ∧
    ("uint8_tag") ∉ stdIntAliasNames := by
  exact ⟨by rfl, by decide⟩

/-- Claim C8 (amended): a typedef is suppressed iff one of the eight
standard fixed-width integer alias names is a prefix of its name
(`re.match` anchors at the start only, so longer names starting with a
standard alias are suppressed too); every other typedef emits exactly
one top-level alias declaration `name = underlying_layout_type`. -/
theorem typedef_suppression_amended :
    ∀ nm : String, ∀ aliasTy : RType,
      (generate_hydras_definition (.typedefR nm aliasTy) = [] ↔
        ∃ p ∈ stdIntAliasNames, List.isPrefixOf p.toList nm.toList = true) ∧
      ((¬ ∃ p ∈ stdIntAliasNames, List.isPrefixOf p.toList nm.toList = true) →
        generate_hydras_definition (.typedefR nm aliasTy)
          = [nm ++ (" = ") ++ get_hydras_type aliasTy ++ ("\n")]) := by
  intro nm aliasTy
  have hiff : isStdIntTypedefName nm = true ↔
      ∃ p ∈ stdIntAliasNames, List.isPrefixOf p.toList nm.toList = true := by
    simp [isStdIntTypedefName, List.any_eq_true]
  constructor
  · constructor
    · intro h
      cases hb : isStdIntTypedefName nm with
      | true => exact hiff.mp hb
      | false => simp [generate_hydras_definition, hb] at h
    · intro h
      simp [generate_hydras_definition, hiff.mpr h]
  · intro h
    cases hb : isStdIntTypedefName nm with
    | true => exact absurd (hiff.mp hb) h
    | false => simp [generate_hydras_definition, hb]

/-- Claim C8, witness: the amended theorem applied to the non-standard
typedef name speed_t, which emits exactly one alias line. -/
theorem typedef_suppression_amended_witness :
    generate_hydras_definition (.typedefR ("speed_t") (.primitive ("unsigned int") 4))
      = [("speed_t") ++ (" = ") ++ get_hydras_type (.primitive ("unsigned int") 4) ++ ("\n")] :=
  (typedef_suppression_amended ("speed_t") (.primitive ("unsigned int") 4)).2 (by decide)

/-! ## Claim C4: the cross-unit merge -/

lemma findSameNamed_aux_none {α : Type} (name : α → Option String) (nm : Option String) :
    ∀ (acc : List α) (r : Option α), (∀ u ∈ acc, name u ≠ nm) →
      acc.foldl (fun res st => if name st = nm then some st else res) r = r := by
  intro acc
  induction acc with
  | nil => intro r h; rfl
  | cons a t ih =>
    intro r h
    simp only [List.foldl_cons]
    rw [if_neg (h a (by simp))]
    exact ih r (fun u hu => h u (by simp [hu]))

lemma findSameNamed_aux_isSome {α : Type} (name : α → Option String) (nm : Option String) :
    ∀ (t : List α) (x : α),
      (t.foldl (fun res st => if name st = nm then some st else res) (some x)).isSome = true := by
  intro t
  induction t with
  | nil => intro x; rfl
  | cons a t2 ih =>
    intro x
    simp only [List.foldl_cons]
    by_cases h : name a = nm
    · rw [if_pos h]; exact ih a
    · rw [if_neg h]; exact ih x

lemma findSameNamed_isSome_of_mem {α : Type} (name : α → Option String) (nm : Option String) :
    ∀ (acc : List α) (r : Option α) (u : α), u ∈ acc → name u = nm →
      (acc.foldl (fun res st => if name st = nm then some st else res) r).isSome = true := by
  intro acc
  induction acc with
  | nil => intro r u hu; simp at hu
  | cons a t ih =>
    intro r u hu hname
    simp only [List.foldl_cons]
    rcases List.mem_cons.mp hu with h | h
    · subst h
      rw [if_pos hname]
      exact findSameNamed_aux_isSome name nm t u
    · by_cases hn : name a = nm
      · rw [if_pos hn]; exact findSameNamed_aux_isSome name nm t a
      · rw [if_neg hn]; exact ih r u h hname

/-- With pairwise-distinct names, the scan finds exactly the one
same-named element. -/
lemma findSameNamed_eq_some {α : Type} (name : α → Option String) (nm : Option String) :
    ∀ (acc : List α) (st : α), (acc.map name).Nodup → st ∈ acc → name st = nm →
      findSameNamed name acc nm = some st := by
  intro acc
  induction acc with
  | nil => intro st hnd hmem; simp at hmem
  | cons a t ih =>
    intro st hnd hmem hname
    simp only [List.map_cons, List.nodup_cons] at hnd
    obtain ⟨hna, hndt⟩ := hnd
    rcases List.mem_cons.mp hmem with hst | hst
    · subst hst
      simp only [findSameNamed, List.foldl_cons, if_pos hname]
      apply findSameNamed_aux_none
      intro u hu hc
      have hmm : name u ∈ t.map name := List.mem_map_of_mem name hu
      rw [hc, ← hname] at hmm
      exact hna hmm
    · have hane : name a ≠ nm := by
        intro hc
        apply hna
        rw [hc, ← hname]
        exact List.mem_map_of_mem name hst
      have := ih st hndt hst hname
      simp only [findSameNamed, List.foldl_cons, if_neg hane] at this ⊢
      exact this

/-- A scan that finds nothing means no element of the accumulator has
the name. -/
lemma findSameNamed_none_not_mem {α : Type} (name : α → Option String)
    (acc : List α) (nm : Option String)
    (h : findSameNamed name acc nm = none) : nm ∉ acc.map name := by
  intro hmem
  obtain ⟨u, hu, hun⟩ := List.mem_map.mp hmem
  have := findSameNamed_isSome_of_mem name nm acc none u hu hun
  rw [show acc.foldl (fun res st => if name st = nm then some st else res) none
      = findSameNamed name acc nm from rfl, h] at this
  simp at this

lemma mergeAll_nodup {α : Type} (name : α → Option String) (eqb : α → α → Bool) :
    ∀ (xs acc res : List α), (acc.map name).Nodup →
      mergeAll name eqb acc xs = .ok res → (res.map name).Nodup := by
  intro xs
  induction xs with
  | nil =>
    intro acc res hnd h
    simp only [mergeAll, Except.ok.injEq] at h
    subst h
    exact hnd
  | cons s rest ih =>
    intro acc res hnd h
    simp only [mergeAll] at h
    cases hms : mergeStep name eqb acc s with
    | error e => rw [hms] at h; simp at h
    | ok acc2 =>
      rw [hms] at h
      refine ih acc2 res ?_ h
      unfold mergeStep at hms
      cases hf : findSameNamed name acc (name s) with
      | none =>
        rw [hf] at hms
        simp only [Except.ok.injEq] at hms
        subst hms
        have hnotmem := findSameNamed_none_not_mem name acc (name s) hf
        simp [List.nodup_append, hnd, hnotmem]
      | some st =>
        rw [hf] at hms
        replace hms : (if eqb st s = true then Except.ok acc
            else Except.error (MergeErr.conflict (name s))) = Except.ok acc2 := hms
        by_cases he : eqb st s = true
        · rw [if_pos he] at hms
          simp only [Except.ok.injEq] at hms
          subst hms
          exact hnd
        · rw [if_neg he] at hms
          simp at hms

/-- Claim C4: the merge loop keeps the result list deduplicated by name
(no two collected definitions share a name); a newly finalized node
whose name is already present and whose collected twin is structurally
equal is discarded, leaving the result list unchanged; and when the
collected twin differs the loop fails with the conflicting-definition
diagnostic carrying the conflicting type's name.  The element type, the
name projection and the structural equality are parameters, exactly the
three things the loop in `main` uses. -/
theorem merge_dedup_and_conflict {α : Type} (name : α → Option String)
    (eqb : α → α → Bool) :
    (∀ xs res : List α, mergeAll name eqb [] xs = .ok res → (res.map name).Nodup) ∧
    (∀ acc : List α, ∀ s st : α, (acc.map name).Nodup → st ∈ acc →
      name st = name s → eqb st s = true →
      mergeStep name eqb acc s = .ok acc) ∧
    (∀ acc : List α, ∀ s st : α, (acc.map name).Nodup → st ∈ acc →
      name st = name s → eqb st s = false →
      mergeStep name eqb acc s = .error (.conflict (name s))) := by
  refine ⟨?_, ?_, ?_⟩
  · intro xs res h
    exact mergeAll_nodup name eqb xs [] res (by simp) h
  · intro acc s st hnd hmem hname heq
    unfold mergeStep
    rw [findSameNamed_eq_some name (name s) acc st hnd hmem hname]
    show (if eqb st s = true then Except.ok acc
      else Except.error (MergeErr.conflict (name s))) = Except.ok acc
    rw [if_pos heq]
  · intro acc s st hnd hmem hname heq
    unfold mergeStep
    rw [findSameNamed_eq_some name (name s) acc st hnd hmem hname]
    show (if eqb st s = true then Except.ok acc
      else Except.error (MergeErr.conflict (name s))) = Except.error (MergeErr.conflict (name s))
    rw [if_neg (by simp [heq])]

/-- Claim C4, witness: the merge theorem applied to concrete nodes — the
redundant equal Point is discarded, the differing Point raises the
conflict naming Point, and the deduplicated result of a run with a
repeated definition has pairwise-distinct names. -/
theorem merge_dedup_and_conflict_witness :
    mergeStep SNode.sname (fun a b => decide (a = b))
      [{ sname := some ("Point"), ssize := 8 }] { sname := some ("Point"), ssize := 8 }
      = .ok [{ sname := some ("Point"), ssize := 8 }] ∧
    mergeStep SNode.sname (fun a b => decide (a = b))
      [{ sname := some ("Point"), ssize := 8 }] { sname := some ("Point"), ssize := 12 }
      = .error (.conflict (some ("Point"))) ∧
    ((([{ sname := some ("Point"), ssize := 8 }, { sname := some ("Line"), ssize := 2 }] :
      List SNode).map SNode.sname).Nodup) := by
  refine ⟨?_, ?_, ?_⟩
  · exact (merge_dedup_and_conflict SNode.sname (fun a b => decide (a = b))).2.1
      [{ sname := some ("Point"), ssize := 8 }]
      { sname := some ("Point"), ssize := 8 } { sname := some ("Point"), ssize := 8 }
      (by decide) (by decide) (by decide) (by decide)
  · exact (merge_dedup_and_conflict SNode.sname (fun a b => decide (a = b))).2.2
      [{ sname := some ("Point"), ssize := 8 }]
      { sname := some ("Point"), ssize := 12 } { sname := some ("Point"), ssize := 8 }
      (by decide) (by decide) (by decide) (by decide)
  · exact (merge_dedup_and_conflict SNode.sname (fun a b => decide (a = b))).1
      [{ sname := some ("Point"), ssize := 8 }, { sname := some ("Line"), ssize := 2 },
        { sname := some ("Point"), ssize := 8 }]
      [{ sname := some ("Point"), ssize := 8 }, { sname := some ("Line"), ssize := 2 }]
      (by rfl)

/-- A variable-length array node: no recorded dimensions, element at
key 1. -/
def vlaNode : Node :=
  { name := none, byteSize := none, state := .stInitial, kind := .arrK (.raw 1) [] }

/-- An unmodelled element node whose byte size stays undefined. -/
def unsupNode : Node :=
  { name := none, byteSize := none, state := .stInitial, kind := .unsupK }

/-- A store holding the variable-length array and its element. -/
def vlaStore : Store := [(0, vlaNode), (1, unsupNode)]

/-- A variable-length array over an element with no byte size finalizes
successfully with its byte size left undefined: the multiplication loop
of `Array.do_finalize` never runs when the dimension list is empty, so
no `TypeError` is raised. -/
theorem vla_array_finalizes_without_size :
    (finalize 5 0 vlaStore []).map
      (fun p => ((lookupT p.1 0).map Node.state, (lookupT p.1 0).map Node.byteSize))
      = .ok (some .stFinalized, some none) := by rfl
